import Mathlib

/-!
A verification model of enaml's `expression_engine` module
(`enaml/core/expression_engine.py`).

The module defines `HandlerPair` (an immutable pair of an optional read
handler and an optional write handler), `HandlerSet` (the per-attribute
aggregate of pairs) and `ExpressionEngine` (a mapping from attribute name
to `HandlerSet` plus a guard set of `(owner, pair)` keys used to suppress
reentrant read/write cycles).

Handlers are arbitrary Python callables that may re-enter the engine
synchronously.  We model a handler by a numeric id together with a small
"program" of actions it performs when invoked (calling back into
`write`/`update`, assigning attributes, raising).  The engine operations
are interpreted by a fuel-indexed interpreter `exec`; fuel is a modelling
artifact which only bounds the reentrancy depth, every theorem supplies
enough of it.  Errors are modelled by a `Bool` success flag (`false` means
an exception propagated out of the call), and observable behaviour is
recorded in an event log.
-/

set_option maxHeartbeats 1000000

namespace EnamlEE

/-- `HandlerPair` from the source: an optional read handler and an optional
write handler.  Handler objects are identified by numeric ids; `none`
models a `None` field. -/
structure HandlerPair where
  reader : Option Nat
  writer : Option Nat
deriving DecidableEq, Repr

/-- `HandlerSet` from the source: the precedent read pair, the ordered list
of write-capable pairs (oldest first), and the full list of pairs. -/
structure HandlerSet where
  read_pair : Option HandlerPair
  write_pairs : List HandlerPair
  all_pairs : List HandlerPair
deriving DecidableEq, Repr

/-- Association-list lookup, modelling `sortedmap.get` / dict lookup. -/
def lookupKV {α β : Type} [DecidableEq α] : List (α × β) → α → Option β
  | [], _ => none
  | (k', v') :: rest, k => if k' = k then some v' else lookupKV rest k

/-- Association-list update, modelling `sortedmap.__setitem__`: replaces the
value at an existing key, otherwise appends a fresh entry. -/
def setKV {α β : Type} [DecidableEq α] : List (α × β) → α → β → List (α × β)
  | [], k, v => [(k, v)]
  | (k', v') :: rest, k, v =>
      if k' = k then (k, v) :: rest else (k', v') :: setKV rest k v

/-- An event observable during engine execution: a write handler ran, a read
handler ran, or an attribute of an owner was assigned (`setattr`). -/
inductive Event where
  | writerCalled (owner : Nat) (pair : HandlerPair) (name : String) (change : Nat)
  | readerCalled (owner : Nat) (pair : HandlerPair) (name : String)
  | attrSet (owner : Nat) (name : String) (v : Nat)
deriving DecidableEq, Repr

/-- One action of a handler body: synchronously re-enter the engine's
`write` or `update`, assign an attribute, or raise an exception. -/
inductive Act where
  | callWrite (name : String) (change : Nat)
  | callUpdate (name : String)
  | setAttr (name : String) (v : Nat)
  | raiseE
deriving DecidableEq, Repr

/-- The mutable state of an `ExpressionEngine` together with the observable
world: `handlers` is the `_handlers` map, `guards` is the `_guards` set of
`(owner, pair)` keys, `attrs` is the attribute store of the owner objects,
`log` records handler invocations and attribute assignments. -/
structure EngState where
  handlers : List (String × HandlerSet)
  guards : List (Nat × HandlerPair)
  attrs : List ((Nat × String) × Nat)
  log : List Event
deriving DecidableEq, Repr

/-- The environment fixing the behaviour of handler objects: the program a
write handler runs, the program a read handler runs before returning, and
the value a read handler returns. -/
structure Env where
  writerProg : Nat → List Act
  readerProg : Nat → List Act
  readerVal : Nat → Nat → String → Nat

/-- Assign attribute `n` of owner `o` in the attribute store. -/
def setA (a : List ((Nat × String) × Nat)) (o : Nat) (n : String) (v : Nat) :
    List ((Nat × String) × Nat) :=
  setKV a (o, n) v

/-- The pending engine work interpreted by `exec`: a handler program, a
`write` call, the fan-out loop of `write` over its write pairs, invoking a
single write handler, or an `update` call. -/
inductive Req where
  | acts (owner : Nat) (items : List Act)
  | wr (owner : Nat) (name : String) (change : Nat)
  | wrLoop (owner : Nat) (name : String) (change : Nat) (pairs : List HandlerPair)
  | invokeW (owner : Nat) (pair : HandlerPair) (name : String) (change : Nat)
  | upd (owner : Nat) (name : String)

/-- The engine interpreter, translated from `ExpressionEngine.write` and
`ExpressionEngine.update` in the source.

* `.wr` is `write`: look up the `HandlerSet`; absent means no-op; otherwise
  run the fan-out loop over `write_pairs`.
* `.wrLoop` is the `for pair in handler.write_pairs` loop: if the key
  `(owner, pair)` is guarded the pair is skipped, otherwise the key is
  added, the writer invoked, and the key unconditionally removed
  (`try/finally`) before continuing; an exception aborts the loop.
* `.invokeW` is `pair.writer(owner, name, change)`; a `None` writer raises
  (`TypeError` in Python).
* `.upd` is `update`: look up the `HandlerSet` and its `read_pair`; absent
  means no-op; if `(owner, read_pair)` is guarded, skip silently; otherwise
  guard, evaluate the reader, `setattr` the result onto the owner, and
  unconditionally remove the key (`try/finally`).
* `.acts` runs a handler program, propagating any exception.

A result `(s, true)` is a normal return in state `s`; `(s, false)` means an
exception propagated to the caller.  Fuel `0` is stuck (never reached by
the theorems below). -/
def exec (env : Env) : Nat → Req → EngState → EngState × Bool
  | 0, _, s => (s, false)
  | f+1, q, s =>
    match q with
    | .acts _ [] => (s, true)
    | .acts o (a :: rest) =>
      match a with
      | .callWrite n c =>
        let r := exec env f (.wr o n c) s
        if r.2 then exec env f (.acts o rest) r.1 else (r.1, false)
      | .callUpdate n =>
        let r := exec env f (.upd o n) s
        if r.2 then exec env f (.acts o rest) r.1 else (r.1, false)
      | .setAttr n v =>
        exec env f (.acts o rest)
          { s with attrs := setA s.attrs o n v, log := s.log ++ [Event.attrSet o n v] }
      | .raiseE => (s, false)
    | .wr o n c =>
      match lookupKV s.handlers n with
      | none => (s, true)
      | some hs => exec env f (.wrLoop o n c hs.write_pairs) s
    | .wrLoop _ _ _ [] => (s, true)
    | .wrLoop o n c (p :: rest) =>
      if (o, p) ∈ s.guards then
        exec env f (.wrLoop o n c rest) s
      else
        let s1 := { s with guards := (o, p) :: s.guards }
        let r := exec env f (.invokeW o p n c) s1
        let s2 := { r.1 with guards := r.1.guards.erase (o, p) }
        if r.2 then exec env f (.wrLoop o n c rest) s2 else (s2, false)
    | .invokeW o p n c =>
      match p.writer with
      | none => (s, false)
      | some w =>
        exec env f (.acts o (env.writerProg w))
          { s with log := s.log ++ [Event.writerCalled o p n c] }
    | .upd o n =>
      match lookupKV s.handlers n with
      | none => (s, true)
      | some hs =>
        match hs.read_pair with
        | none => (s, true)
        | some p =>
          if (o, p) ∈ s.guards then (s, true)
          else
            let s1 := { s with guards := (o, p) :: s.guards }
            match p.reader with
            | none => ({ s1 with guards := s1.guards.erase (o, p) }, false)
            | some rd =>
              let s2 := { s1 with log := s1.log ++ [Event.readerCalled o p n] }
              let r := exec env f (.acts o (env.readerProg rd)) s2
              if r.2 then
                let v := env.readerVal rd o n
                let s3 := { r.1 with attrs := setA r.1.attrs o n v,
                                     log := r.1.log ++ [Event.attrSet o n v] }
                ({ s3 with guards := s3.guards.erase (o, p) }, true)
              else ({ r.1 with guards := r.1.guards.erase (o, p) }, false)

/-- `ExpressionEngine.write(owner, name, change)`. -/
def write (env : Env) (f : Nat) (s : EngState) (o : Nat) (n : String) (c : Nat) :
    EngState × Bool :=
  exec env f (Req.wr o n c) s

/-- `ExpressionEngine.update(owner, name)`. -/
def update (env : Env) (f : Nat) (s : EngState) (o : Nat) (n : String) :
    EngState × Bool :=
  exec env f (Req.upd o n) s

/-- The result of `ExpressionEngine.read`: the `NotImplemented` sentinel
(`noBinding`), a value, or a propagated exception. -/
inductive ReadResult where
  | noBinding
  | value (v : Nat)
  | err
deriving DecidableEq, Repr

/-- Invoking `pair.reader(owner, name)`: a `None` reader raises; otherwise
the reader's program runs (it may re-enter the engine) and, on normal
completion, the reader's value is returned. -/
def invokeReader (env : Env) (f : Nat) (s : EngState) (o : Nat) (p : HandlerPair)
    (nm : String) : EngState × Option Nat :=
  match p.reader with
  | none => (s, none)
  | some rd =>
    let s1 := { s with log := s.log ++ [Event.readerCalled o p nm] }
    let r := exec env f (.acts o (env.readerProg rd)) s1
    if r.2 then (r.1, some (env.readerVal rd o nm)) else (r.1, none)

/-- `ExpressionEngine.read(owner, name)`, translated from the source: look
up the `HandlerSet`; if absent or without a `read_pair`, return the
`NotImplemented` sentinel; otherwise return the reader's result directly,
propagating any exception. -/
def read (env : Env) (f : Nat) (s : EngState) (o : Nat) (nm : String) :
    EngState × ReadResult :=
  match lookupKV s.handlers nm with
  | none => (s, ReadResult.noBinding)
  | some hs =>
    match hs.read_pair with
    | none => (s, ReadResult.noBinding)
    | some p =>
      match invokeReader env f s o p nm with
      | (s', some v) => (s', ReadResult.value v)
      | (s', none) => (s', ReadResult.err)

/-- Whether `read` would find a readable binding for `nm` (the source's
`handler is not None and handler.read_pair is not None` test). -/
def hasReadBinding (s : EngState) (nm : String) : Bool :=
  match lookupKV s.handlers nm with
  | none => false
  | some hs => hs.read_pair.isSome

/-- The `HandlerSet()` default: no read pair, empty lists. -/
def emptyHandlerSet : HandlerSet := ⟨none, [], []⟩

/-- The body of `add_pair` acting on one `HandlerSet`, translated from the
source: append to `all_pairs`; a read-capable pair becomes the new
`read_pair`; a write-capable pair is appended to `write_pairs`. -/
def applyAdd (h0 : HandlerSet) (pair : HandlerPair) : HandlerSet :=
  let h1 : HandlerSet := { h0 with all_pairs := h0.all_pairs ++ [pair] }
  let h2 : HandlerSet :=
    if pair.reader.isSome then { h1 with read_pair := some pair } else h1
  if pair.writer.isSome then { h2 with write_pairs := h2.write_pairs ++ [pair] } else h2

/-- `ExpressionEngine.add_pair(name, pair)`: look up or lazily create the
`HandlerSet` for `name` and extend it with `pair`. -/
def addPair (s : EngState) (name : String) (pair : HandlerPair) : EngState :=
  let h0 := match lookupKV s.handlers name with
    | some h => h
    | none => emptyHandlerSet
  { s with handlers := setKV s.handlers name (applyAdd h0 pair) }

/-- A sequence of `add_pair` calls on the same name. -/
def addPairs (s : EngState) (name : String) (ps : List HandlerPair) : EngState :=
  ps.foldl (fun acc p => addPair acc name p) s

/-- `ExpressionEngine.__nonzero__`: true iff the handler map is non-empty. -/
def engineNonzero (s : EngState) : Bool :=
  decide (0 < s.handlers.length)

/-- A freshly constructed `ExpressionEngine()`: empty handler map, empty
guard set (with an empty world). -/
def emptyEngine : EngState := ⟨[], [], [], []⟩

/-- The last-added pair of a sequence that has a non-null read capability
(the spec's description of `read_pair` precedence). -/
def lastReadCapable (ps : List HandlerPair) : Option HandlerPair :=
  (ps.filter (fun p => p.reader.isSome)).getLast?

/-- Accumulator form of `lastReadCapable` with an explicit default. -/
def lastReadD : List HandlerPair → Option HandlerPair → Option HandlerPair
  | [], d => d
  | p :: rest, d => lastReadD rest (if p.reader.isSome then some p else d)

/-- A concrete handler environment used to exercise the theorems: writer 1
re-enters `write` on `"x"`, writer 3 raises, writer 4 re-enters `update`
on `"x"`, all other writers are inert; reader 1 re-enters `write` on
`"x"`, all other readers are inert; every reader returns 7. -/
def envW : Env where
  writerProg := fun w =>
    if w = 1 then [Act.callWrite "x" 7]
    else if w = 3 then [Act.raiseE]
    else if w = 4 then [Act.callUpdate "x"]
    else []
  readerProg := fun r => if r = 1 then [Act.callWrite "x" 9] else []
  readerVal := fun _ _ _ => 7

/-- A write-only pair whose writer (id 0) is inert. -/
def pairW0 : HandlerPair := ⟨none, some 0⟩

/-- A write-only pair whose writer (id 1) re-enters `write` on `"x"`. -/
def pairW1 : HandlerPair := ⟨none, some 1⟩

/-- A write-only pair whose writer (id 3) raises. -/
def pairW3 : HandlerPair := ⟨none, some 3⟩

/-- A write-only pair whose writer (id 5) is inert. -/
def pairW5 : HandlerPair := ⟨none, some 5⟩

/-- A read/write pair: reader 1 re-enters `write` on `"x"`, writer 4
re-enters `update` on `"x"`. -/
def pairRW : HandlerPair := ⟨some 1, some 4⟩

/-- A read-only pair with the inert reader 0. -/
def pairR0 : HandlerPair := ⟨some 0, none⟩

/-- An engine with the reentrant write pair `pairW1` bound to `"x"`. -/
def stC1 : EngState := ⟨[("x", ⟨none, [pairW1], [pairW1]⟩)], [], [], []⟩

/-- An engine with write pairs `pairW0`, `pairW3` (raising) and `pairW5`
bound to `"x"` in that order. -/
def stC2 : EngState :=
  ⟨[("x", ⟨none, [pairW0, pairW3, pairW5], [pairW0, pairW3, pairW5]⟩)], [], [], []⟩

/-- An engine with the read-only pair `pairR0` bound to `"x"`. -/
def stC6 : EngState := ⟨[("x", ⟨some pairR0, [], [pairR0]⟩)], [], [], []⟩

/-- An engine with the write pairs `pairW0` then `pairW5` bound to `"x"`. -/
def stC7 : EngState :=
  ⟨[("x", ⟨none, [pairW0, pairW5], [pairW0, pairW5]⟩)], [], [], []⟩

/-- An engine with the read/write pair `pairRW` bound to `"x"`. -/
def stC10 : EngState := ⟨[("x", ⟨some pairRW, [pairRW], [pairRW]⟩)], [], [], []⟩

/-!
A reference (heap) model of `HandlerSet` and `ExpressionEngine.copy`.

The independence claims about `copy()` are about object aliasing: in the
source, `HandlerSet` objects and their two `atom.List` members are mutable
objects mutated in place by `add_pair`, so a pure value model cannot even
state that a copy's lists are independent of the original's.  Here the
mutable objects live in an explicit heap: `Heap.lists` stores the list
objects and `Heap.hsets` the `HandlerSet` objects, both addressed by
index.  A `HandlerSetR` holds its `read_pair` by value (`HandlerPair` is
immutable) and its `write_pairs`/`all_pairs` as references.

Assigning to an `atom.List` member stores an independent copy of the
assigned list (atom validates and copies list values on assignment), so
`HandlerSet.copy`'s `new.write_pairs = self.write_pairs` allocates a fresh
list object with the same elements; `new.read_pair = self.read_pair`
shares the immutable pair.  `ExpressionEngine.copy` copies every handler
set this way and gives the new engine a fresh empty guard set.
-/

/-- A `HandlerSet` object in the heap model: `read_pair` by value, the two
list members by reference. -/
structure HandlerSetR where
  read_pair : Option HandlerPair
  write_pairs : Nat
  all_pairs : Nat
deriving DecidableEq, Repr

/-- The heap of mutable objects: list objects and `HandlerSet` objects,
addressed by index; allocation appends. -/
structure Heap where
  hsets : List HandlerSetR
  lists : List (List HandlerPair)
deriving DecidableEq, Repr

/-- An `ExpressionEngine` in the heap model: attribute name to
`HandlerSet` reference, plus the guard set. -/
structure EngineR where
  handlers : List (String × Nat)
  guards : List (Nat × HandlerPair)
deriving DecidableEq, Repr

/-- Dereference a list object. -/
def getL (h : Heap) (r : Nat) : List HandlerPair := h.lists.getD r []

/-- Overwrite a list object in place. -/
def setL (h : Heap) (r : Nat) (l : List HandlerPair) : Heap :=
  { h with lists := h.lists.set r l }

/-- Dereference a `HandlerSet` object. -/
def getHS (h : Heap) (r : Nat) : HandlerSetR := h.hsets.getD r ⟨none, 0, 0⟩

/-- Overwrite a `HandlerSet` object in place (a `read_pair` assignment). -/
def setHS (h : Heap) (r : Nat) (x : HandlerSetR) : Heap :=
  { h with hsets := h.hsets.set r x }

/-- Allocate a fresh list object. -/
def allocL (h : Heap) (l : List HandlerPair) : Heap × Nat :=
  ({ h with lists := h.lists ++ [l] }, h.lists.length)

/-- Allocate a fresh `HandlerSet` object. -/
def allocHS (h : Heap) (x : HandlerSetR) : Heap × Nat :=
  ({ h with hsets := h.hsets ++ [x] }, h.hsets.length)

/-- The body of `add_pair` on an existing `HandlerSet` object `r`:
`all_pairs.append(pair)` mutates the list in place, a read-capable pair
overwrites `read_pair`, `write_pairs.append(pair)` mutates in place. -/
def addPairAt (h : Heap) (r : Nat) (p : HandlerPair) : Heap :=
  let hs := getHS h r
  let h1 := setL h hs.all_pairs (getL h hs.all_pairs ++ [p])
  let h2 := if p.reader.isSome then setHS h1 r { hs with read_pair := some p } else h1
  if p.writer.isSome then setL h2 hs.write_pairs (getL h2 hs.write_pairs ++ [p]) else h2

/-- `ExpressionEngine.add_pair` in the heap model: look up the handler set
reference, lazily allocating a fresh `HandlerSet()` (with fresh empty list
members), then extend it in place. -/
def addPairR (h : Heap) (e : EngineR) (name : String) (p : HandlerPair) :
    Heap × EngineR :=
  match lookupKV e.handlers name with
  | some r => (addPairAt h r p, e)
  | none =>
    let a1 := allocL h []
    let a2 := allocL a1.1 []
    let a3 := allocHS a2.1 ⟨none, a1.2, a2.2⟩
    (addPairAt a3.1 a3.2 p, { e with handlers := e.handlers ++ [(name, a3.2)] })

/-- `HandlerSet.copy`: the new object shares `read_pair` (pairs are
immutable) and gets fresh, independent list objects holding the same pair
references. -/
def copyHS (h : Heap) (r : Nat) : Heap × Nat :=
  let hs := getHS h r
  let a1 := allocL h (getL h hs.write_pairs)
  let a2 := allocL a1.1 (getL h hs.all_pairs)
  allocHS a2.1 ⟨hs.read_pair, a1.2, a2.2⟩

/-- Copy every handler set of an engine's map, in order. -/
def copyEngineGo : Heap → List (String × Nat) → Heap × List (String × Nat)
  | h, [] => (h, [])
  | h, (n, r) :: rest =>
    let a := copyHS h r
    let b := copyEngineGo a.1 rest
    (b.1, (n, a.2) :: b.2)

/-- `ExpressionEngine.copy`: a new engine whose map holds copies of every
handler set and whose guard set is fresh and empty. -/
def copyEngine (h : Heap) (e : EngineR) : Heap × EngineR :=
  let a := copyEngineGo h e.handlers
  (a.1, ⟨a.2, []⟩)

/-- The observable contents of a `HandlerSet` object: its `read_pair` and
the element sequences of its two list members. -/
structure HSView where
  read_pair : Option HandlerPair
  write_pairs : List HandlerPair
  all_pairs : List HandlerPair
deriving DecidableEq, Repr

/-- Dereference a `HandlerSet` object down to its observable contents. -/
def viewHS (h : Heap) (r : Nat) : HSView :=
  let hs := getHS h r
  ⟨hs.read_pair, getL h hs.write_pairs, getL h hs.all_pairs⟩

/-- The observable contents of every handler set of an engine. -/
def viewList (h : Heap) (hl : List (String × Nat)) : List (String × HSView) :=
  hl.map (fun a => (a.1, viewHS h a.2))

/-- The observable contents of an engine's whole handler map. -/
def viewEngine (h : Heap) (e : EngineR) : List (String × HSView) :=
  viewList h e.handlers

/-- Well-formedness of a `HandlerSet` reference: the object and its two
list members are live heap cells. -/
def wfHS (h : Heap) (r : Nat) : Prop :=
  r < h.hsets.length ∧ (getHS h r).write_pairs < h.lists.length ∧
    (getHS h r).all_pairs < h.lists.length

/-- Well-formedness of an engine: every handler-set reference is live. -/
def wfEngine (h : Heap) (e : EngineR) : Prop :=
  ∀ nr ∈ e.handlers, wfHS h nr.2

instance : DecidablePred (fun rh : Heap × Nat => wfHS rh.1 rh.2) :=
  fun _ => by unfold wfHS; infer_instance

instance (h : Heap) (e : EngineR) : Decidable (wfEngine h e) := by
  unfold wfEngine wfHS; infer_instance

/-- A one-binding heap used to exercise the copy theorem: the handler set
for `"x"` holds `pairR0`. -/
def heapC3 : Heap := ⟨[⟨some pairR0, 0, 1⟩], [[], [pairR0]]⟩

/-- The engine owning the single handler set of `heapC3`. -/
def engC3 : EngineR := ⟨[("x", 0)], []⟩

/-- The heap-extension order: every object of `h` is preserved in `h'`. -/
def heapLE (h h' : Heap) : Prop :=
  (∃ t, h'.hsets = h.hsets ++ t) ∧ (∃ u, h'.lists = h.lists ++ u)

/-- Heap extension performed by the `HandlerSet()` allocation inside
`add_pair` when a name is not yet bound: a fresh handler-set object with
two fresh empty list members. -/
def extHeap (h : Heap) : Heap :=
  ⟨h.hsets ++ [⟨none, h.lists.length, h.lists.length + 1⟩], h.lists ++ [[], []]⟩

/-- Guard discipline: every engine operation restores the guard set on every
exit path, normal or exceptional. -/
theorem exec_guards (env : Env) :
    ∀ (f : Nat) (q : Req) (s : EngState), (exec env f q s).1.guards = s.guards := by
  intro f
  induction f with
  | zero => intro q s; rfl
  | succ f ih =>
    intro q s
    cases q with
    | acts o items =>
      cases items with
      | nil => rfl
      | cons a rest =>
        cases a with
        | callWrite n c => simp only [exec]; split <;> simp [ih]
        | callUpdate n => simp only [exec]; split <;> simp [ih]
        | setAttr n v => simp only [exec]; simp [ih]
        | raiseE => rfl
    | wr o n c =>
      simp only [exec]
      rcases hlk : lookupKV s.handlers n with _ | hs <;> simp [hlk, ih]
    | wrLoop o n c pairs =>
      cases pairs with
      | nil => rfl
      | cons p rest =>
        simp only [exec]
        by_cases hm : (o, p) ∈ s.guards
        · simp [hm, ih]
        · simp only [hm, if_false, if_neg, not_false_iff]
          split <;> simp [ih, List.erase_cons_head]
    | invokeW o p n c =>
      simp only [exec]
      rcases hw : p.writer with _ | w <;> simp [hw, ih]
    | upd o n =>
      simp only [exec]
      rcases hlk : lookupKV s.handlers n with _ | hs
      · simp [hlk]
      · simp only [hlk]
        rcases hrp : hs.read_pair with _ | p
        · simp [hrp]
        · simp only [hrp]
          by_cases hm : (o, p) ∈ s.guards
          · simp [hm]
          · simp only [hm, if_false, if_neg, not_false_iff]
            rcases hrd : p.reader with _ | rd
            · simp [hrd, List.erase_cons_head]
            · simp only [hrd]
              split <;> simp [ih, List.erase_cons_head]

/-- Claim C8: `update` on a name with no handler set, or whose handler set
has no read pair, is a no-op that never raises. -/
theorem claim_C8 (env : Env) (f : Nat) (s : EngState) (o : Nat) (nm : String)
    (h : hasReadBinding s nm = false) :
    update env (f + 1) s o nm = (s, true) := by
  unfold hasReadBinding at h
  rcases hlk : lookupKV s.handlers nm with _ | hs
  · simp [update, exec, hlk]
  · rw [hlk] at h
    simp only at h
    rcases hrp : hs.read_pair with _ | p
    · simp [update, exec, hlk, hrp]
    · rw [hrp] at h; simp at h

theorem claim_C8_witness : update envW 1 emptyEngine 0 "x" = (emptyEngine, true) :=
  claim_C8 envW 0 emptyEngine 0 "x" (by decide)

/-- Claim C9: the engine's boolean test is true exactly when the handler
map is non-empty; false on a fresh engine, true after any `add_pair`. -/
theorem claim_C9 :
    engineNonzero emptyEngine = false ∧
      (∀ (s : EngState) (n : String) (p : HandlerPair),
        engineNonzero (addPair s n p) = true) ∧
      ∀ s : EngState, engineNonzero s = !s.handlers.isEmpty := by
  refine ⟨rfl, ?_, ?_⟩
  · intro s n p
    have h : ∀ (l : List (String × HandlerSet)) (k : String) (v : HandlerSet),
        0 < (setKV l k v).length := by
      intro l k v
      cases l with
      | nil => simp [setKV]
      | cons a t => simp only [setKV]; split <;> simp
    simp [engineNonzero, addPair, h]
  · intro s
    cases h : s.handlers <;> simp [engineNonzero, h]

theorem lookupKV_setKV_self {α β : Type} [DecidableEq α]
    (l : List (α × β)) (k : α) (v : β) : lookupKV (setKV l k v) k = some v := by
  induction l with
  | nil => simp [setKV, lookupKV]
  | cons a t ih =>
    simp only [setKV]
    split
    · simp [lookupKV]
    · rename_i hne
      simp only [lookupKV]
      rw [if_neg hne]
      exact ih

theorem applyAdd_all (h : HandlerSet) (p : HandlerPair) :
    (applyAdd h p).all_pairs = h.all_pairs ++ [p] := by
  unfold applyAdd
  split <;> split <;> rfl

theorem applyAdd_write (h : HandlerSet) (p : HandlerPair) :
    (applyAdd h p).write_pairs =
      h.write_pairs ++ if p.writer.isSome then [p] else [] := by
  unfold applyAdd
  split <;> split <;> simp

theorem applyAdd_read (h : HandlerSet) (p : HandlerPair) :
    (applyAdd h p).read_pair =
      if p.reader.isSome then some p else h.read_pair := by
  unfold applyAdd
  split <;> split <;> simp_all

theorem foldl_applyAdd_all (ps : List HandlerPair) :
    ∀ h : HandlerSet, (ps.foldl applyAdd h).all_pairs = h.all_pairs ++ ps := by
  induction ps with
  | nil => intro h; simp
  | cons p rest ih =>
    intro h
    simp only [List.foldl_cons]
    rw [ih, applyAdd_all, List.append_assoc]
    rfl

theorem foldl_applyAdd_write (ps : List HandlerPair) :
    ∀ h : HandlerSet, (ps.foldl applyAdd h).write_pairs =
      h.write_pairs ++ ps.filter (fun p => p.writer.isSome) := by
  induction ps with
  | nil => intro h; simp
  | cons p rest ih =>
    intro h
    simp only [List.foldl_cons, List.filter_cons]
    rw [ih, applyAdd_write]
    split <;> simp

theorem foldl_applyAdd_read (ps : List HandlerPair) :
    ∀ h : HandlerSet, (ps.foldl applyAdd h).read_pair = lastReadD ps h.read_pair := by
  induction ps with
  | nil => intro h; rfl
  | cons p rest ih =>
    intro h
    simp only [List.foldl_cons, lastReadD]
    rw [ih, applyAdd_read]

theorem getLast?_cons_or (p : HandlerPair) (l : List HandlerPair) :
    (p :: l).getLast? = l.getLast?.or (some p) := by
  cases l with
  | nil => rfl
  | cons q t =>
    rw [List.getLast?_cons_cons]
    rcases h : (q :: t).getLast? with _ | x
    · exact absurd (List.getLast?_eq_none_iff.mp h) (by simp)
    · rfl

theorem lastReadD_eq (ps : List HandlerPair) :
    ∀ d, lastReadD ps d =
      ((ps.filter (fun p => p.reader.isSome)).getLast?).or d := by
  induction ps with
  | nil => intro d; rfl
  | cons p rest ih =>
    intro d
    simp only [lastReadD, List.filter_cons]
    split
    · rw [ih, getLast?_cons_or]
      rcases hx : (List.filter (fun p => p.reader.isSome) rest).getLast? with _ | x <;>
        rw [hx] <;> rfl
    · exact ih d

theorem addPairs_lookup (name : String) (ps : List HandlerPair) :
    ∀ (s : EngState) (hs0 : HandlerSet), lookupKV s.handlers name = some hs0 →
      lookupKV (addPairs s name ps).handlers name = some (ps.foldl applyAdd hs0) := by
  induction ps with
  | nil => intro s hs0 h; simpa [addPairs] using h
  | cons p rest ih =>
    intro s hs0 h
    have step : addPairs s name (p :: rest) = addPairs (addPair s name p) name rest := rfl
    rw [step]
    have hl : lookupKV (addPair s name p).handlers name = some (applyAdd hs0 p) := by
      unfold addPair
      rw [h]
      simp [lookupKV_setKV_self]
    rw [ih _ _ hl]
    rfl

theorem addPairs_lookup_none (name : String) (s : EngState) (p : HandlerPair)
    (ps : List HandlerPair) (h : lookupKV s.handlers name = none) :
    lookupKV (addPairs s name (p :: ps)).handlers name =
      some ((p :: ps).foldl applyAdd emptyHandlerSet) := by
  have step : addPairs s name (p :: ps) = addPairs (addPair s name p) name ps := rfl
  rw [step]
  have hl : lookupKV (addPair s name p).handlers name =
      some (applyAdd emptyHandlerSet p) := by
    unfold addPair
    rw [h]
    simp [lookupKV_setKV_self]
  rw [addPairs_lookup name ps _ _ hl]
  rfl

/-- Claim C4: after any non-empty sequence of `add_pair` calls on one name
of an engine with no prior binding for it, `read_pair` is the last-added
pair with a non-null reader, or null if none has one. -/
theorem claim_C4 (s : EngState) (name : String) (ps : List HandlerPair)
    (h0 : lookupKV s.handlers name = none) (hne : ps ≠ []) :
    (lookupKV (addPairs s name ps).handlers name).map (fun hs => hs.read_pair) =
      some (lastReadCapable ps) := by
  rcases ps with _ | ⟨p, rest⟩
  · exact absurd rfl hne
  · rw [addPairs_lookup_none name s p rest h0]
    simp only [Option.map_some']
    rw [foldl_applyAdd_read, lastReadD_eq]
    simp [lastReadCapable, emptyHandlerSet]

/-- Claim C5: after any non-empty sequence of `add_pair` calls on one name
of an engine with no prior binding for it, `write_pairs` is exactly the
subsequence of added pairs with a non-null writer, in insertion order, and
`all_pairs` is the full insertion sequence. -/
theorem claim_C5 (s : EngState) (name : String) (ps : List HandlerPair)
    (h0 : lookupKV s.handlers name = none) (hne : ps ≠ []) :
    (lookupKV (addPairs s name ps).handlers name).map
        (fun hs => (hs.write_pairs, hs.all_pairs)) =
      some (ps.filter (fun p => p.writer.isSome), ps) := by
  rcases ps with _ | ⟨p, rest⟩
  · exact absurd rfl hne
  · rw [addPairs_lookup_none name s p rest h0]
    simp only [Option.map_some']
    rw [foldl_applyAdd_write, foldl_applyAdd_all]
    simp [emptyHandlerSet]

theorem claim_C4_witness :
    (lookupKV (addPairs emptyEngine "x" [pairR0, pairRW, pairW0]).handlers "x").map
        (fun hs => hs.read_pair) = some (lastReadCapable [pairR0, pairRW, pairW0]) :=
  claim_C4 emptyEngine "x" [pairR0, pairRW, pairW0] (by decide) (by decide)

theorem claim_C5_witness :
    (lookupKV (addPairs emptyEngine "x" [pairR0, pairRW, pairW0]).handlers "x").map
        (fun hs => (hs.write_pairs, hs.all_pairs)) =
      some ([pairRW, pairW0], [pairR0, pairRW, pairW0]) := by
  have h := claim_C5 emptyEngine "x" [pairR0, pairRW, pairW0] (by decide) (by decide)
  rw [h]
  decide

theorem invokeReader_guards (env : Env) (f : Nat) (s : EngState) (o : Nat)
    (p : HandlerPair) (nm : String) :
    (invokeReader env f s o p nm).1.guards = s.guards := by
  unfold invokeReader
  rcases hrd : p.reader with _ | rd
  · rfl
  · simp only []
    split <;> simp [exec_guards]

/-- Claim C6: `read` returns the no-binding sentinel exactly when there is
no handler set or no read pair for the name; otherwise it delegates to the
read handler directly, propagating errors; it never touches the guard set;
and the sentinel is distinct from every value. -/
theorem claim_C6 (env : Env) (f : Nat) (s : EngState) (o : Nat) (nm : String) :
    ((read env f s o nm).2 = ReadResult.noBinding ↔ hasReadBinding s nm = false) ∧
    (read env f s o nm).1.guards = s.guards ∧
    (∀ hs p, lookupKV s.handlers nm = some hs → hs.read_pair = some p →
      read env f s o nm =
        (match invokeReader env f s o p nm with
         | (s', some v) => (s', ReadResult.value v)
         | (s', none) => (s', ReadResult.err))) ∧
    (∀ v, ReadResult.value v ≠ ReadResult.noBinding) ∧
    ReadResult.err ≠ ReadResult.noBinding := by
  rcases hlk : lookupKV s.handlers nm with _ | hs
  · refine ⟨by simp [read, hasReadBinding, hlk], by simp [read, hlk], ?_,
      by intro v; simp, by simp⟩
    intro hs2 p2 h1 h2
    cases h1
  · rcases hrp : hs.read_pair with _ | p
    · refine ⟨by simp [read, hasReadBinding, hlk, hrp], by simp [read, hlk, hrp], ?_,
        by intro v; simp, by simp⟩
      intro hs2 p2 h1 h2
      injection h1 with h1'
      subst h1'
      rw [hrp] at h2
      cases h2
    · have hdel : read env f s o nm =
          (match invokeReader env f s o p nm with
           | (s', some v) => (s', ReadResult.value v)
           | (s', none) => (s', ReadResult.err)) := by
        simp [read, hlk, hrp]
      refine ⟨?_, ?_, ?_, by intro v; simp, by simp⟩
      · rw [hdel]
        rcases hI : invokeReader env f s o p nm with ⟨s', vOpt⟩
        simp only [hasReadBinding, hlk, hrp]
        cases vOpt <;> simp
      · rw [hdel]
        have hg := invokeReader_guards env f s o p nm
        rcases hI : invokeReader env f s o p nm with ⟨s', vOpt⟩
        rw [hI] at hg
        cases vOpt <;> simpa using hg
      · intro hs2 p2 h1 h2
        injection h1 with h1'
        subst h1'
        rw [hrp] at h2
        injection h2 with h2'
        subst h2'
        exact hdel

theorem claim_C6_witness :
    (read envW 9 stC6 0 "x").1.guards = stC6.guards ∧
    ((read envW 9 stC6 0 "x").2 = ReadResult.noBinding ↔ hasReadBinding stC6 "x" = false) ∧
    read envW 9 stC6 0 "x" =
      ({ stC6 with log := [Event.readerCalled 0 pairR0 "x"] }, ReadResult.value 7) := by
  have h := claim_C6 envW 9 stC6 0 "x"
  refine ⟨h.2.1, h.1, ?_⟩
  have h3 := h.2.2.1 ⟨some pairR0, [], [pairR0]⟩ pairR0 (by decide) (by decide)
  rw [h3]
  decide

/-- Claim C1: a write handler that synchronously re-enters `write` on the
same owner and name is skipped on the nested call, runs exactly once, and
the guard key is gone afterwards, on normal and on error exit. -/
theorem claim_C1 (env : Env) (f o w c c2 : Nat) (nm : String) (rOpt : Option Nat)
    (s : EngState) (hs : HandlerSet) (doRaise : Bool)
    (hw : env.writerProg w = [Act.callWrite nm c2] ++ (bif doRaise then [Act.raiseE] else []))
    (hlk : lookupKV s.handlers nm = some hs)
    (hwp : hs.write_pairs = [⟨rOpt, some w⟩])
    (hg : (o, (⟨rOpt, some w⟩ : HandlerPair)) ∉ s.guards) :
    write env (f + 12) s o nm c =
      ({ s with log := s.log ++ [Event.writerCalled o ⟨rOpt, some w⟩ nm c] }, !doRaise) ∧
      (o, (⟨rOpt, some w⟩ : HandlerPair)) ∉ (write env (f + 12) s o nm c).1.guards := by
  have main : write env (f + 12) s o nm c =
      ({ s with log := s.log ++ [Event.writerCalled o ⟨rOpt, some w⟩ nm c] }, !doRaise) := by
    cases doRaise <;>
      simp [write, exec, hlk, hwp, hw, hg, List.erase_cons_head]
  refine ⟨main, ?_⟩
  rw [main]
  exact hg

theorem claim_C1_witness :
    write envW 12 stC1 0 "x" 5 =
        ({ stC1 with log := [Event.writerCalled 0 pairW1 "x" 5] }, true) ∧
      (0, pairW1) ∉ (write envW 12 stC1 0 "x" 5).1.guards := by
  have h := claim_C1 envW 0 0 1 5 7 "x" none stC1 ⟨none, [pairW1], [pairW1]⟩ false
    (by decide) (by decide) (by decide) (by decide)
  exact h

/-- Claim C7: two write-capable pairs bound to the same name both run on a
`write`, in insertion order, each exactly once. -/
theorem claim_C7 (env : Env) (f o wa wb c : Nat) (nm : String)
    (ra rb : Option Nat) (s : EngState) (hs : HandlerSet)
    (hA : env.writerProg wa = []) (hB : env.writerProg wb = [])
    (hlk : lookupKV s.handlers nm = some hs)
    (hwp : hs.write_pairs = [⟨ra, some wa⟩, ⟨rb, some wb⟩])
    (hgA : (o, (⟨ra, some wa⟩ : HandlerPair)) ∉ s.guards)
    (hgB : (o, (⟨rb, some wb⟩ : HandlerPair)) ∉ s.guards) :
    write env (f + 12) s o nm c =
      ({ s with log := s.log ++ [Event.writerCalled o ⟨ra, some wa⟩ nm c,
                                 Event.writerCalled o ⟨rb, some wb⟩ nm c] }, true) := by
  simp [write, exec, hlk, hwp, hA, hB, hgA, hgB, List.erase_cons_head]

theorem claim_C7_witness :
    write envW 12 stC7 0 "x" 5 =
      ({ stC7 with log := [Event.writerCalled 0 pairW0 "x" 5,
                           Event.writerCalled 0 pairW5 "x" 5] }, true) :=
  claim_C7 envW 0 0 0 5 5 "x" none none stC7 ⟨none, [pairW0, pairW5], [pairW0, pairW5]⟩
    (by decide) (by decide) (by decide) (by decide) (by decide) (by decide)

/-- Claim C2: when a write handler raises, later write pairs are not
invoked, the failing pair's guard key is removed, and the error propagates
to the caller of `write`. -/
theorem claim_C2 (env : Env) (f o wa we c : Nat) (nm : String)
    (ra re : Option Nat) (pb : HandlerPair) (s : EngState) (hs : HandlerSet)
    (hA : env.writerProg wa = []) (hE : env.writerProg we = [Act.raiseE])
    (hlk : lookupKV s.handlers nm = some hs)
    (hwp : hs.write_pairs = [⟨ra, some wa⟩, ⟨re, some we⟩, pb])
    (hgA : (o, (⟨ra, some wa⟩ : HandlerPair)) ∉ s.guards)
    (hgE : (o, (⟨re, some we⟩ : HandlerPair)) ∉ s.guards) :
    write env (f + 12) s o nm c =
      ({ s with log := s.log ++ [Event.writerCalled o ⟨ra, some wa⟩ nm c,
                                 Event.writerCalled o ⟨re, some we⟩ nm c] }, false) := by
  simp [write, exec, hlk, hwp, hA, hE, hgA, hgE, List.erase_cons_head]

theorem claim_C2_witness :
    write envW 12 stC2 0 "x" 5 =
      ({ stC2 with log := [Event.writerCalled 0 pairW0 "x" 5,
                           Event.writerCalled 0 pairW3 "x" 5] }, false) :=
  claim_C2 envW 0 0 0 3 5 "x" none none pairW5 stC2
    ⟨none, [pairW0, pairW3, pairW5], [pairW0, pairW3, pairW5]⟩
    (by decide) (by decide) (by decide) (by decide) (by decide) (by decide)

/-- Claim C10: write and update share the guard key `(owner, pair)`: an
`update` triggered from inside the pair's own write handler is silently
skipped (no read, no attribute assignment), and a `write` triggered from
inside the pair's own reader during `update` skips that pair's writer. -/
theorem claim_C10 (env : Env) (f o w rd c c2 : Nat) (nm : String)
    (s : EngState) (hs : HandlerSet)
    (hwProg : env.writerProg w = [Act.callUpdate nm])
    (hrProg : env.readerProg rd = [Act.callWrite nm c2])
    (hlk : lookupKV s.handlers nm = some hs)
    (hrp : hs.read_pair = some ⟨some rd, some w⟩)
    (hwp : hs.write_pairs = [⟨some rd, some w⟩])
    (hg : (o, (⟨some rd, some w⟩ : HandlerPair)) ∉ s.guards) :
    write env (f + 12) s o nm c =
        ({ s with log := s.log ++ [Event.writerCalled o ⟨some rd, some w⟩ nm c] }, true) ∧
      update env (f + 12) s o nm =
        ({ s with attrs := setA s.attrs o nm (env.readerVal rd o nm),
                  log := s.log ++ [Event.readerCalled o ⟨some rd, some w⟩ nm,
                                   Event.attrSet o nm (env.readerVal rd o nm)] }, true) := by
  constructor
  · simp [write, exec, hlk, hrp, hwp, hwProg, hg, List.erase_cons_head]
  · simp [update, exec, hlk, hrp, hwp, hrProg, hg, List.erase_cons_head]

theorem claim_C10_witness :
    write envW 12 stC10 0 "x" 5 =
        ({ stC10 with log := [Event.writerCalled 0 pairRW "x" 5] }, true) ∧
      update envW 12 stC10 0 "x" =
        ({ stC10 with attrs := [((0, "x"), 7)],
                      log := [Event.readerCalled 0 pairRW "x",
                              Event.attrSet 0 "x" 7] }, true) := by
  have h := claim_C10 envW 0 0 4 1 5 9 "x" stC10 ⟨some pairRW, [pairRW], [pairRW]⟩
    (by decide) (by decide) (by decide) (by decide) (by decide) (by decide)
  exact h

theorem listGetD_append_lt {α : Type} :
    ∀ (l t : List α) (r : Nat) (d : α), r < l.length →
      (l ++ t).getD r d = l.getD r d := by
  intro l
  induction l with
  | nil => intro t r d h; cases h
  | cons a l ih =>
    intro t r d h
    cases r with
    | zero => rfl
    | succ r =>
      simp only [List.cons_append, List.getD_cons_succ]
      exact ih t r d (Nat.lt_of_succ_lt_succ h)

theorem listGetD_append_right {α : Type} :
    ∀ (l t : List α) (i : Nat) (d : α), (l ++ t).getD (l.length + i) d = t.getD i d := by
  intro l
  induction l with
  | nil => intro t i d; simp
  | cons a l ih =>
    intro t i d
    simp only [List.cons_append, List.length_cons]
    have e : l.length + 1 + i = (l.length + i) + 1 := by omega
    rw [e, List.getD_cons_succ]
    exact ih t i d

theorem listGetD_set_ne {α : Type} :
    ∀ (l : List α) (i j : Nat) (x : α) (d : α), i ≠ j →
      (l.set i x).getD j d = l.getD j d := by
  intro l
  induction l with
  | nil => intro i j x d _; rfl
  | cons a l ih =>
    intro i j x d hne
    cases i with
    | zero =>
      cases j with
      | zero => exact absurd rfl hne
      | succ j => rfl
    | succ i =>
      cases j with
      | zero => rfl
      | succ j =>
        simp only [List.set_cons_succ, List.getD_cons_succ]
        exact ih i j x d (fun hc => hne (by rw [hc]))

theorem listGetD2_first {α : Type} (l : List α) (A B : α) (d : α) :
    (l ++ [A, B]).getD l.length d = A := by
  simpa using listGetD_append_right l [A, B] 0 d

theorem listGetD2_second {α : Type} (l : List α) (A B : α) (d : α) :
    (l ++ [A, B]).getD (l.length + 1) d = B := by
  simpa using listGetD_append_right l [A, B] 1 d

theorem heapLE_refl (h : Heap) : heapLE h h :=
  ⟨⟨[], by simp⟩, ⟨[], by simp⟩⟩

theorem heapLE_trans {h1 h2 h3 : Heap} (a : heapLE h1 h2) (b : heapLE h2 h3) :
    heapLE h1 h3 := by
  obtain ⟨⟨t1, ht1⟩, ⟨u1, hu1⟩⟩ := a
  obtain ⟨⟨t2, ht2⟩, ⟨u2, hu2⟩⟩ := b
  exact ⟨⟨t1 ++ t2, by rw [ht2, ht1, List.append_assoc]⟩,
         ⟨u1 ++ u2, by rw [hu2, hu1, List.append_assoc]⟩⟩

theorem heapLE_hsets_le {h h' : Heap} (a : heapLE h h') :
    h.hsets.length ≤ h'.hsets.length := by
  obtain ⟨⟨t, ht⟩, _⟩ := a
  rw [ht]; simp

theorem heapLE_lists_le {h h' : Heap} (a : heapLE h h') :
    h.lists.length ≤ h'.lists.length := by
  obtain ⟨_, ⟨u, hu⟩⟩ := a
  rw [hu]; simp

theorem getHS_mono {h h' : Heap} (a : heapLE h h') {r : Nat}
    (hr : r < h.hsets.length) : getHS h' r = getHS h r := by
  obtain ⟨⟨t, ht⟩, _⟩ := a
  unfold getHS
  rw [ht, listGetD_append_lt _ _ _ _ hr]

theorem getL_mono {h h' : Heap} (a : heapLE h h') {r : Nat}
    (hr : r < h.lists.length) : getL h' r = getL h r := by
  obtain ⟨_, ⟨u, hu⟩⟩ := a
  unfold getL
  rw [hu, listGetD_append_lt _ _ _ _ hr]

theorem wfHS_mono {h h' : Heap} (a : heapLE h h') {r : Nat} (hr : wfHS h r) :
    wfHS h' r := by
  obtain ⟨h1, h2, h3⟩ := hr
  refine ⟨Nat.lt_of_lt_of_le h1 (heapLE_hsets_le a), ?_, ?_⟩ <;>
    rw [getHS_mono a h1]
  · exact Nat.lt_of_lt_of_le h2 (heapLE_lists_le a)
  · exact Nat.lt_of_lt_of_le h3 (heapLE_lists_le a)

theorem viewHS_mono {h h' : Heap} (a : heapLE h h') {r : Nat} (hr : wfHS h r) :
    viewHS h' r = viewHS h r := by
  obtain ⟨h1, h2, h3⟩ := hr
  simp only [viewHS]
  rw [getHS_mono a h1, getL_mono a h2, getL_mono a h3]

theorem viewList_mono {h h' : Heap} (a : heapLE h h') {hl : List (String × Nat)}
    (hwf : ∀ nr ∈ hl, wfHS h nr.2) : viewList h' hl = viewList h hl := by
  unfold viewList
  induction hl with
  | nil => rfl
  | cons nr rest ih =>
    simp only [List.map_cons]
    rw [viewHS_mono a (hwf nr (by simp)), ih (fun x hx => hwf x (by simp [hx]))]

theorem viewList_congr {h1 h2 : Heap} {hl : List (String × Nat)}
    (hv : ∀ nr ∈ hl, viewHS h1 nr.2 = viewHS h2 nr.2) :
    viewList h1 hl = viewList h2 hl := by
  unfold viewList
  induction hl with
  | nil => rfl
  | cons nr rest ih =>
    simp only [List.map_cons]
    rw [hv nr (by simp), ih (fun x hx => hv x (by simp [hx]))]

theorem copyHS_fst (h : Heap) (r : Nat) :
    (copyHS h r).1 =
      ⟨h.hsets ++ [⟨(getHS h r).read_pair, h.lists.length, h.lists.length + 1⟩],
       h.lists ++ [getL h (getHS h r).write_pairs, getL h (getHS h r).all_pairs]⟩ := by
  simp [copyHS, allocL, allocHS]

theorem copyHS_snd (h : Heap) (r : Nat) : (copyHS h r).2 = h.hsets.length := by
  simp [copyHS, allocL, allocHS]

theorem heapLE_copyHS (h : Heap) (r : Nat) : heapLE h (copyHS h r).1 := by
  rw [copyHS_fst]
  exact ⟨⟨_, rfl⟩, ⟨_, rfl⟩⟩

theorem getHS_copyHS_new (h : Heap) (r : Nat) :
    getHS (copyHS h r).1 (copyHS h r).2 =
      ⟨(getHS h r).read_pair, h.lists.length, h.lists.length + 1⟩ := by
  rw [copyHS_fst, copyHS_snd]
  unfold getHS
  have e := listGetD_append_right h.hsets
    [(⟨(getHS h r).read_pair, h.lists.length, h.lists.length + 1⟩ : HandlerSetR)] 0
    (⟨none, 0, 0⟩ : HandlerSetR)
  simp only [Nat.add_zero] at e
  simpa using e

theorem wfHS_copyHS_new (h : Heap) (r : Nat) : wfHS (copyHS h r).1 (copyHS h r).2 := by
  refine ⟨?_, ?_, ?_⟩
  · rw [copyHS_snd, copyHS_fst]
    simp only [List.length_append, List.length_cons, List.length_nil]
    omega
  · rw [getHS_copyHS_new, copyHS_fst]
    simp only [List.length_append, List.length_cons, List.length_nil]
    omega
  · rw [getHS_copyHS_new, copyHS_fst]
    simp only [List.length_append, List.length_cons, List.length_nil]
    omega

theorem getL_copyHS_wr (h : Heap) (r : Nat) :
    getL (copyHS h r).1 h.lists.length = getL h (getHS h r).write_pairs := by
  rw [copyHS_fst]
  unfold getL
  simp only
  exact listGetD2_first _ _ _ _

theorem getL_copyHS_ar (h : Heap) (r : Nat) :
    getL (copyHS h r).1 (h.lists.length + 1) = getL h (getHS h r).all_pairs := by
  rw [copyHS_fst]
  unfold getL
  simp only
  exact listGetD2_second _ _ _ _

theorem viewHS_copyHS_new (h : Heap) (r : Nat) :
    viewHS (copyHS h r).1 (copyHS h r).2 = viewHS h r := by
  simp only [viewHS, getHS_copyHS_new, getL_copyHS_wr, getL_copyHS_ar]

theorem getHS_setL (h : Heap) (i : Nat) (l : List HandlerPair) (x : Nat) :
    getHS (setL h i l) x = getHS h x := rfl

theorem getL_setHS (h : Heap) (i : Nat) (y : HandlerSetR) (x : Nat) :
    getL (setHS h i y) x = getL h x := rfl

theorem getHS_setHS_ne (h : Heap) (i : Nat) (y : HandlerSetR) (x : Nat)
    (hne : i ≠ x) : getHS (setHS h i y) x = getHS h x := by
  unfold getHS setHS
  exact listGetD_set_ne _ i x y _ hne

theorem getL_setL_ne (h : Heap) (i : Nat) (l : List HandlerPair) (x : Nat)
    (hne : i ≠ x) : getL (setL h i l) x = getL h x := by
  unfold getL setL
  exact listGetD_set_ne _ i x l _ hne

theorem viewHS_setL_ne (h : Heap) (i : Nat) (l : List HandlerPair) (r0 : Nat)
    (hw : i ≠ (getHS h r0).write_pairs) (ha : i ≠ (getHS h r0).all_pairs) :
    viewHS (setL h i l) r0 = viewHS h r0 := by
  simp only [viewHS, getHS_setL]
  rw [getL_setL_ne _ _ _ _ hw, getL_setL_ne _ _ _ _ ha]

theorem viewHS_setHS_ne (h : Heap) (i : Nat) (y : HandlerSetR) (r0 : Nat)
    (hne : i ≠ r0) : viewHS (setHS h i y) r0 = viewHS h r0 := by
  simp only [viewHS, getL_setHS, getHS_setHS_ne _ _ _ _ hne]

/-- Mutating handler set `r` through `add_pair` leaves every handler set
whose object and list members are disjoint from `r`'s untouched. -/
theorem viewHS_addPairAt_frame (h : Heap) (r r0 : Nat) (p : HandlerPair)
    (hne : r ≠ r0)
    (h1 : (getHS h r).all_pairs ≠ (getHS h r0).write_pairs)
    (h2 : (getHS h r).all_pairs ≠ (getHS h r0).all_pairs)
    (h3 : (getHS h r).write_pairs ≠ (getHS h r0).write_pairs)
    (h4 : (getHS h r).write_pairs ≠ (getHS h r0).all_pairs) :
    viewHS (addPairAt h r p) r0 = viewHS h r0 := by
  simp only [addPairAt]
  split
  · split
    · rw [viewHS_setL_ne _ _ _ _
          (by rw [getHS_setHS_ne _ _ _ _ hne, getHS_setL]; exact h3)
          (by rw [getHS_setHS_ne _ _ _ _ hne, getHS_setL]; exact h4),
        viewHS_setHS_ne _ _ _ _ hne, viewHS_setL_ne _ _ _ _ h1 h2]
    · rw [viewHS_setL_ne _ _ _ _ (by rw [getHS_setL]; exact h3)
          (by rw [getHS_setL]; exact h4),
        viewHS_setL_ne _ _ _ _ h1 h2]
  · split
    · rw [viewHS_setHS_ne _ _ _ _ hne, viewHS_setL_ne _ _ _ _ h1 h2]
    · rw [viewHS_setL_ne _ _ _ _ h1 h2]

theorem viewList_addPairAt_frame (h : Heap) (r : Nat) (p : HandlerPair)
    (tl : List (String × Nat))
    (hfr : ∀ nr ∈ tl, r ≠ nr.2 ∧
      (getHS h r).all_pairs ≠ (getHS h nr.2).write_pairs ∧
      (getHS h r).all_pairs ≠ (getHS h nr.2).all_pairs ∧
      (getHS h r).write_pairs ≠ (getHS h nr.2).write_pairs ∧
      (getHS h r).write_pairs ≠ (getHS h nr.2).all_pairs) :
    viewList (addPairAt h r p) tl = viewList h tl :=
  viewList_congr (fun nr hnr =>
    viewHS_addPairAt_frame h r nr.2 p (hfr nr hnr).1 (hfr nr hnr).2.1
      (hfr nr hnr).2.2.1 (hfr nr hnr).2.2.2.1 (hfr nr hnr).2.2.2.2)

theorem heapLE_extHeap (h : Heap) : heapLE h (extHeap h) :=
  ⟨⟨_, rfl⟩, ⟨_, rfl⟩⟩

theorem getHS_extHeap_new (h : Heap) :
    getHS (extHeap h) h.hsets.length =
      ⟨none, h.lists.length, h.lists.length + 1⟩ := by
  unfold getHS extHeap
  have e := listGetD_append_right h.hsets
    [(⟨none, h.lists.length, h.lists.length + 1⟩ : HandlerSetR)] 0
    (⟨none, 0, 0⟩ : HandlerSetR)
  simp only [Nat.add_zero] at e
  simpa using e

theorem addPairR_none (h : Heap) (e : EngineR) (name : String) (p : HandlerPair)
    (hlk : lookupKV e.handlers name = none) :
    (addPairR h e name p).1 = addPairAt (extHeap h) h.hsets.length p := by
  simp [addPairR, hlk, allocL, allocHS, extHeap]

theorem addPairR_some (h : Heap) (e : EngineR) (name : String) (p : HandlerPair)
    (r : Nat) (hlk : lookupKV e.handlers name = some r) :
    (addPairR h e name p).1 = addPairAt h r p := by
  simp [addPairR, hlk]

theorem lookupKV_mem {α β : Type} [DecidableEq α] :
    ∀ (l : List (α × β)) (k : α) (v : β), lookupKV l k = some v → (k, v) ∈ l := by
  intro l
  induction l with
  | nil => intro k v hc; cases hc
  | cons a t ih =>
    intro k v hlk
    obtain ⟨k', v'⟩ := a
    simp only [lookupKV] at hlk
    split at hlk
    · rename_i hk
      injection hlk with hv
      subst hk
      subst hv
      exact List.mem_cons_self _ _
    · exact List.mem_cons_of_mem _ (ih k v hlk)

/-- The copying loop of `ExpressionEngine.copy`: it only extends the heap,
reproduces the observable contents of every copied handler set, and every
object of the copy (the handler-set objects and both list members) is
freshly allocated above the original heap. -/
theorem copyGo_spec :
    ∀ (hl : List (String × Nat)) (h : Heap), (∀ nr ∈ hl, wfHS h nr.2) →
      heapLE h (copyEngineGo h hl).1 ∧
      viewList (copyEngineGo h hl).1 (copyEngineGo h hl).2 = viewList h hl ∧
      ∀ nr ∈ (copyEngineGo h hl).2,
        wfHS (copyEngineGo h hl).1 nr.2 ∧
        h.hsets.length ≤ nr.2 ∧
        h.lists.length ≤ (getHS (copyEngineGo h hl).1 nr.2).write_pairs ∧
        h.lists.length ≤ (getHS (copyEngineGo h hl).1 nr.2).all_pairs := by
  intro hl
  induction hl with
  | nil =>
    intro h _
    refine ⟨heapLE_refl h, rfl, ?_⟩
    intro nr hnr
    cases hnr
  | cons a rest ih =>
    intro h hwf
    obtain ⟨n, r⟩ := a
    have hwfr : wfHS h r := hwf (n, r) (List.mem_cons_self _ _)
    have hle1 : heapLE h (copyHS h r).1 := heapLE_copyHS h r
    have hwfrest : ∀ nr ∈ rest, wfHS (copyHS h r).1 nr.2 :=
      fun nr hnr => wfHS_mono hle1 (hwf nr (List.mem_cons_of_mem _ hnr))
    obtain ⟨ihle, ihview, ihbounds⟩ := ih (copyHS h r).1 hwfrest
    have hgo : copyEngineGo h ((n, r) :: rest) =
        ((copyEngineGo (copyHS h r).1 rest).1,
         (n, (copyHS h r).2) :: (copyEngineGo (copyHS h r).1 rest).2) := rfl
    rw [hgo]
    have hwfnew : wfHS (copyEngineGo (copyHS h r).1 rest).1 (copyHS h r).2 :=
      wfHS_mono ihle (wfHS_copyHS_new h r)
    refine ⟨heapLE_trans hle1 ihle, ?_, ?_⟩
    · show viewList _ ((n, (copyHS h r).2) :: _) = viewList h ((n, r) :: rest)
      have hv1 : viewHS (copyEngineGo (copyHS h r).1 rest).1 (copyHS h r).2 =
          viewHS h r := by
        rw [viewHS_mono ihle (wfHS_copyHS_new h r), viewHS_copyHS_new]
      have hv2 : viewList (copyEngineGo (copyHS h r).1 rest).1
            (copyEngineGo (copyHS h r).1 rest).2 = viewList h rest := by
        rw [ihview,
          viewList_mono hle1 (fun nr hnr => hwf nr (List.mem_cons_of_mem _ hnr))]
      simp only [viewList, List.map_cons] at hv2 ⊢
      rw [hv1, hv2]
    · intro nr hnr
      rcases List.mem_cons.mp hnr with hhd | htl
      · subst hhd
        have hgs : getHS (copyEngineGo (copyHS h r).1 rest).1 (copyHS h r).2 =
            ⟨(getHS h r).read_pair, h.lists.length, h.lists.length + 1⟩ := by
          rw [getHS_mono ihle (wfHS_copyHS_new h r).1, getHS_copyHS_new]
        refine ⟨hwfnew, ?_, ?_, ?_⟩
        · rw [copyHS_snd]
        · rw [hgs]
        · rw [hgs]
          exact Nat.le_succ_of_le (Nat.le_refl _)
      · obtain ⟨hw1, hw2, hw3, hw4⟩ := ihbounds nr htl
        have hsl : h.hsets.length ≤ (copyHS h r).1.hsets.length :=
          heapLE_hsets_le hle1
        have hll : h.lists.length ≤ (copyHS h r).1.lists.length :=
          heapLE_lists_le hle1
        exact ⟨hw1, Nat.le_trans hsl hw2, Nat.le_trans hll hw3, Nat.le_trans hll hw4⟩

/-- Claim C3: `copy()` yields an engine with a fresh empty guard set whose
handler sets have the same observable contents (shared `read_pair` and
pair references, equal list contents), and whose list objects are
independent: `add_pair` on the original never changes the copy's
observable handler sets, and `add_pair` on the copy never changes the
original's. -/
theorem claim_C3 (h : Heap) (e : EngineR) (hwf : wfEngine h e) :
    (copyEngine h e).2.guards = [] ∧
    viewEngine (copyEngine h e).1 (copyEngine h e).2 = viewEngine h e ∧
    viewEngine (copyEngine h e).1 e = viewEngine h e ∧
    (∀ (name : String) (p : HandlerPair),
      viewEngine (addPairR (copyEngine h e).1 e name p).1 (copyEngine h e).2 =
        viewEngine (copyEngine h e).1 (copyEngine h e).2) ∧
    (∀ (name : String) (p : HandlerPair),
      viewEngine (addPairR (copyEngine h e).1 (copyEngine h e).2 name p).1 e =
        viewEngine (copyEngine h e).1 e) := by
  obtain ⟨hle, hview, hbounds⟩ := copyGo_spec e.handlers h hwf
  have hc1 : (copyEngine h e).1 = (copyEngineGo h e.handlers).1 := rfl
  have hc2 : (copyEngine h e).2.handlers = (copyEngineGo h e.handlers).2 := rfl
  refine ⟨rfl, ?_, ?_, ?_, ?_⟩
  · show viewList _ _ = viewList _ _
    rw [hc1, hc2]
    exact hview
  · show viewList _ _ = viewList _ _
    rw [hc1]
    exact viewList_mono hle hwf
  · intro name p
    show viewList _ _ = viewList _ _
    rw [hc1, hc2]
    cases hlkE : lookupKV e.handlers name with
    | some r =>
      have hmem := lookupKV_mem e.handlers name r hlkE
      have hwfr : wfHS h r := hwf (name, r) hmem
      obtain ⟨hr1, hr2, hr3⟩ := hwfr
      have hgr : getHS (copyEngineGo h e.handlers).1 r = getHS h r :=
        getHS_mono hle hr1
      rw [show (addPairR (copyEngineGo h e.handlers).1 e name p).1 =
            addPairAt (copyEngineGo h e.handlers).1 r p from
          addPairR_some _ _ _ _ _ hlkE]
      apply viewList_addPairAt_frame
      intro nr hnr
      obtain ⟨hwfn, hns, hwl, hal⟩ := hbounds nr hnr
      refine ⟨by omega, ?_, ?_, ?_, ?_⟩ <;> rw [hgr] <;> omega
    | none =>
      rw [show (addPairR (copyEngineGo h e.handlers).1 e name p).1 =
            addPairAt (extHeap (copyEngineGo h e.handlers).1)
              (copyEngineGo h e.handlers).1.hsets.length p from
          addPairR_none _ _ _ _ hlkE]
      have hstep : viewList
          (addPairAt (extHeap (copyEngineGo h e.handlers).1)
            (copyEngineGo h e.handlers).1.hsets.length p)
          (copyEngineGo h e.handlers).2 =
          viewList (extHeap (copyEngineGo h e.handlers).1)
            (copyEngineGo h e.handlers).2 := by
        apply viewList_addPairAt_frame
        intro nr hnr
        obtain ⟨hwfn, hns, hwl, hal⟩ := hbounds nr hnr
        obtain ⟨hn1, hn2, hn3⟩ := hwfn
        have hgx : getHS (extHeap (copyEngineGo h e.handlers).1)
            (copyEngineGo h e.handlers).1.hsets.length =
            ⟨none, (copyEngineGo h e.handlers).1.lists.length,
             (copyEngineGo h e.handlers).1.lists.length + 1⟩ :=
          getHS_extHeap_new _
        have hgn : getHS (extHeap (copyEngineGo h e.handlers).1) nr.2 =
            getHS (copyEngineGo h e.handlers).1 nr.2 :=
          getHS_mono (heapLE_extHeap _) hn1
        refine ⟨by omega, ?_, ?_, ?_, ?_⟩ <;> simp only [hgx, hgn] <;> omega
      rw [hstep]
      exact viewList_mono (heapLE_extHeap _) (fun nr hnr => (hbounds nr hnr).1)
  · intro name p
    show viewList _ _ = viewList _ _
    rw [hc1]
    cases hlkF : lookupKV (copyEngine h e).2.handlers name with
    | some r =>
      have hmem := lookupKV_mem _ name r hlkF
      rw [hc2] at hmem
      obtain ⟨hwfn, hns, hwl, hal⟩ := hbounds (name, r) hmem
      simp only at hns hwl hal
      have hgr2 : ∀ nr0, nr0 ∈ e.handlers →
          getHS (copyEngineGo h e.handlers).1 nr0.2 = getHS h nr0.2 :=
        fun nr0 hnr0 => getHS_mono hle (hwf nr0 hnr0).1
      rw [show (addPairR (copyEngineGo h e.handlers).1 (copyEngine h e).2 name p).1 =
            addPairAt (copyEngineGo h e.handlers).1 r p from
          addPairR_some _ _ _ _ _ hlkF]
      apply viewList_addPairAt_frame
      intro nr hnr
      obtain ⟨he1, he2, he3⟩ := hwf nr hnr
      rw [hgr2 nr hnr]
      refine ⟨by omega, by omega, by omega, by omega, by omega⟩
    | none =>
      rw [show (addPairR (copyEngineGo h e.handlers).1 (copyEngine h e).2 name p).1 =
            addPairAt (extHeap (copyEngineGo h e.handlers).1)
              (copyEngineGo h e.handlers).1.hsets.length p from
          addPairR_none _ _ _ _ hlkF]
      have hstep : viewList
          (addPairAt (extHeap (copyEngineGo h e.handlers).1)
            (copyEngineGo h e.handlers).1.hsets.length p)
          e.handlers =
          viewList (extHeap (copyEngineGo h e.handlers).1) e.handlers := by
        apply viewList_addPairAt_frame
        intro nr hnr
        obtain ⟨he1, he2, he3⟩ := hwf nr hnr
        have hn1 : nr.2 < (copyEngineGo h e.handlers).1.hsets.length :=
          Nat.lt_of_lt_of_le he1 (heapLE_hsets_le hle)
        have hgx : getHS (extHeap (copyEngineGo h e.handlers).1)
            (copyEngineGo h e.handlers).1.hsets.length =
            ⟨none, (copyEngineGo h e.handlers).1.lists.length,
             (copyEngineGo h e.handlers).1.lists.length + 1⟩ :=
          getHS_extHeap_new _
        have hgn : getHS (extHeap (copyEngineGo h e.handlers).1) nr.2 =
            getHS h nr.2 := by
          rw [getHS_mono (heapLE_extHeap _) hn1, getHS_mono hle he1]
        have hword : h.lists.length ≤ (copyEngineGo h e.handlers).1.lists.length :=
          heapLE_lists_le hle
        refine ⟨by omega, ?_, ?_, ?_, ?_⟩ <;> simp only [hgx, hgn] <;> omega
      rw [hstep]
      exact viewList_mono (heapLE_extHeap _)
        (fun nr hnr => wfHS_mono hle (hwf nr hnr))

theorem claim_C3_witness :
    (copyEngine heapC3 engC3).2.guards = [] ∧
    viewEngine (copyEngine heapC3 engC3).1 (copyEngine heapC3 engC3).2 =
      viewEngine heapC3 engC3 ∧
    viewEngine (addPairR (copyEngine heapC3 engC3).1 engC3 "x" pairW0).1
        (copyEngine heapC3 engC3).2 =
      viewEngine (copyEngine heapC3 engC3).1 (copyEngine heapC3 engC3).2 ∧
    viewEngine (addPairR (copyEngine heapC3 engC3).1 (copyEngine heapC3 engC3).2
        "x" pairW0).1 engC3 =
      viewEngine (copyEngine heapC3 engC3).1 engC3 := by
  have hcl := claim_C3 heapC3 engC3 (by decide)
  exact ⟨hcl.1, hcl.2.1, hcl.2.2.2.1 "x" pairW0, hcl.2.2.2.2 "x" pairW0⟩

end EnamlEE
